import Mathlib

/-!
Verification of the freehand painting widget and panel-compositor state
logic of `src/main.rs` (a bevy_egui demo application).

The embedding models, faithfully to the source:
  * `Painting` (src/main.rs:342-345): `lines : Vec<Vec<egui::Vec2>>` plus a
    stroke style.  2D points are modelled as pairs of integers (`Pos`);
    the properties verified here depend only on equality and on
    componentwise `+`/`-` of coordinates, not on `f32` rounding.
  * `Painting::ui_content` (src/main.rs:368-394): the per-frame step of the
    canvas, taking the canvas rectangle origin (`rect.min`) and the result
    of `response.interact_pointer_pos()` (`Option Pos`), and the per-frame
    draw pass over the polylines.
  * `Painting::ui_control` (src/main.rs:357-366): the stroke editor and the
    "Clear Painting" button.
  * the Increment button (src/main.rs:260-262) and the Load/Invert/Remove
    image-button logic (src/main.rs:325-339) of `ui_example_system`.
-/

/-- A 2D point / vector (`egui::Vec2`, `egui::Pos2`), componentwise
arithmetic. -/
abbrev Pos : Type := Int × Int

/-- Stroke style (`egui::Stroke`): a width and an RGBA color
(src/main.rs:344). -/
structure Stroke where
  width : ℚ
  color : Nat × Nat × Nat × Nat
deriving DecidableEq, Repr

/-- `egui::Color32::LIGHT_BLUE` = rgb(173, 216, 230), opaque. -/
def lightBlue : Nat × Nat × Nat × Nat := (173, 216, 230, 255)

/-- The painting state (src/main.rs:342-345): an ordered sequence of
polylines plus the active stroke style. -/
structure Painting where
  lines : List (List Pos)
  stroke : Stroke
deriving DecidableEq, Repr

/-- `impl Default for Painting` (src/main.rs:347-354): no lines, stroke of
width 1.0 and color LIGHT_BLUE. -/
def Painting.default : Painting :=
  { lines := [], stroke := { width := 1, color := lightBlue } }

/-- The polyline currently receiving points: `self.lines.last_mut()`
(src/main.rs:377).  Returns `[]` when there are no polylines. -/
def lastLine (p : Painting) : List Pos :=
  (p.lines.getLast?).getD []

/-- One frame of `Painting::ui_content` (src/main.rs:368-386), state
mutation only (the draw pass is `paintShapes` below).
`rectMin` is `rect.min`, `pointer` is `response.interact_pointer_pos()`.
  * line 373-375: if `lines` is empty, push an empty polyline;
  * line 379-383: with an interact pointer position, compute the
    canvas-local position and push it onto the current (last) line unless
    it equals that line's last point;
  * line 384-386: otherwise, if the current line is non-empty, push a new
    empty polyline. -/
def uiContentStep (rectMin : Pos) (pointer : Option Pos) (p : Painting) :
    Painting :=
  let lines := if p.lines.isEmpty then p.lines ++ [[]] else p.lines
  let currentLine := (lines.getLast?).getD []
  let newLines :=
    match pointer with
    | some pointerPos =>
      let canvasPos := pointerPos - rectMin
      if currentLine.getLast? ≠ some canvasPos then
        lines.dropLast ++ [currentLine ++ [canvasPos]]
      else
        lines
    | none =>
      if ¬ currentLine.isEmpty then lines ++ [[]] else lines
  { p with lines := newLines }

/-- `Painting::ui_control` (src/main.rs:357-366): the stroke editor widget
may replace the stroke (`strokeEdit`), and a click of "Clear Painting"
(`clearClicked`) runs `self.lines.clear()`. -/
def uiControl (strokeEdit : Option Stroke) (clearClicked : Bool)
    (p : Painting) : Painting :=
  let p' :=
    match strokeEdit with
    | some st => { p with stroke := st }
    | none => p
  if clearClicked then { p' with lines := [] } else p'

/-- The draw pass of `ui_content` (src/main.rs:388-393): every polyline
with at least 2 points becomes a line strip of its points translated by
`rect.min`; shorter polylines add no shape. -/
def paintShapes (rectMin : Pos) : List (List Pos) → List (List Pos)
  | [] => []
  | line :: rest =>
    if 2 ≤ line.length then
      (line.map (fun p => rectMin + p)) :: paintShapes rectMin rest
    else
      paintShapes rectMin rest

/-- The line segments of a line strip: consecutive pairs of its points. -/
def segments (strip : List Pos) : List (Pos × Pos) :=
  strip.zip strip.tail

/-- Run `ui_content` over a sequence of per-frame pointer inputs. -/
def runFrames (rectMin : Pos) (inputs : List (Option Pos)) (p : Painting) :
    Painting :=
  inputs.foldl (fun st i => uiContentStep rectMin i st) p

/-- Number of closed polylines of a painting state: every polyline except
the last (the last is the one still able to receive points). -/
def closedCount (p : Painting) : Nat :=
  p.lines.length - 1

/-- Number of completed press-then-release cycles in a pointer-input
trace, given whether the pointer is currently held: a cycle completes at
each transition from a held pointer to a released one. -/
def cyclesFrom : Bool → List (Option Pos) → Nat
  | _, [] => 0
  | held, i :: rest =>
    (if held && i.isNone then 1 else 0) + cyclesFrom i.isSome rest

/-- Press-then-release cycles of a trace, starting released. -/
def pressReleaseCycles (inputs : List (Option Pos)) : Nat :=
  cyclesFrom false inputs

/-- Whether the pointer is held after a trace, given its state before. -/
def heldAfter : Bool → List (Option Pos) → Bool
  | held, [] => held
  | _, i :: rest => heldAfter i.isSome rest

/-- The Increment button of `ui_example_system` (src/main.rs:260-262):
when clicked, `ui_state.value += 1.0`, without any clamping. -/
def incrementStep (clicked : Bool) (v : ℚ) : ℚ :=
  if clicked then v + 1 else v

/-- The two image assets of `ui_example_system` (src/main.rs:15-18):
`icon.png` and its inverted variant. -/
inductive ImageHandle
  | bevyIcon
  | bevyIconInverted
deriving DecidableEq, Repr

/-- The image-related part of the UI session state touched by the
Load/Invert buttons: the `inverted` flag and the stored
`rendered_texture_id`. -/
structure ImageUiState where
  inverted : Bool
  renderedTextureId : Nat
deriving DecidableEq, Repr

/-- The Load/Invert logic at the end of `ui_example_system`
(src/main.rs:325-335): an Invert click flips `inverted`; after a Load or
Invert click the id returned by `contexts.add_image` for the handle
selected by the (post-toggle) flag is stored as `rendered_texture_id`.
`addImage` abstracts the texture registry (`EguiContexts::add_image`),
which resolves a handle to a texture id. -/
def imageButtonsStep (addImage : ImageHandle → Nat) (load invert : Bool)
    (s : ImageUiState) : ImageUiState :=
  let s1 := if invert then { s with inverted := ! s.inverted } else s
  if load || invert then
    { s1 with
      renderedTextureId :=
        if s1.inverted then addImage ImageHandle.bevyIconInverted
        else addImage ImageHandle.bevyIcon }
  else
    s1

/-- Painting states reachable from the initial state by frame steps of
`ui_content` and by `ui_control` interactions. -/
inductive Reachable : Painting → Prop
  | init : Reachable Painting.default
  | frame (rectMin : Pos) (pointer : Option Pos) {p : Painting} :
      Reachable p → Reachable (uiContentStep rectMin pointer p)
  | control (strokeEdit : Option Stroke) (clearClicked : Bool)
      {p : Painting} :
      Reachable p → Reachable (uiControl strokeEdit clearClicked p)

-- Sanity checks of the embedding on concrete traces (the drag scenario of
-- the spec: drag (0,0) → (10,0) → (10,10), release, then a click at (5,5)).
example :
    (runFrames (0, 0)
      [some (0, 0), some (10, 0), some (10, 10), none, some (5, 5)]
      Painting.default).lines =
    [[(0, 0), (10, 0), (10, 10)], [(5, 5)]] := by decide

example :
    (runFrames (0, 0) [some (1, 1), some (1, 1), none]
      Painting.default).lines = [[(1, 1)], []] := by decide

example :
    paintShapes (3, 4) [[(0, 0)], [(1, 1), (2, 2)], []] =
    [[(4, 5), (5, 6)]] := by decide

/-! ### Helper lemmas about one `ui_content` step -/

lemma lines_eq_concat {α : Type} (l : List α) (h : l ≠ []) :
    ∃ l' a, l = l' ++ [a] :=
  ⟨l.dropLast, l.getLast h, (List.dropLast_append_getLast h).symm⟩

lemma uiContentStep_nil_some (r pp : Pos) (st : Stroke) :
    uiContentStep r (some pp) ⟨[], st⟩ = ⟨[[pp - r]], st⟩ := rfl

lemma uiContentStep_nil_none (r : Pos) (st : Stroke) :
    uiContentStep r none ⟨[], st⟩ = ⟨[[]], st⟩ := rfl

lemma uiContentStep_concat_some (r pp : Pos) (pre : List (List Pos))
    (lastL : List Pos) (st : Stroke) :
    uiContentStep r (some pp) ⟨pre ++ [lastL], st⟩ =
      if lastL.getLast? ≠ some (pp - r) then ⟨pre ++ [lastL ++ [pp - r]], st⟩
      else ⟨pre ++ [lastL], st⟩ := by
  simp only [uiContentStep, List.isEmpty_eq_true, List.append_eq_nil,
    List.cons_ne_self, and_false, if_false, List.getLast?_concat,
    Option.getD_some, List.dropLast_concat, ite_not]
  split <;> simp_all

lemma uiContentStep_concat_none (r : Pos) (pre : List (List Pos))
    (lastL : List Pos) (st : Stroke) :
    uiContentStep r none ⟨pre ++ [lastL], st⟩ =
      if lastL.isEmpty then ⟨pre ++ [lastL], st⟩
      else ⟨(pre ++ [lastL]) ++ [[]], st⟩ := by
  simp only [uiContentStep, List.isEmpty_eq_true, List.append_eq_nil,
    List.cons_ne_self, and_false, if_false, List.getLast?_concat,
    Option.getD_some, ite_not]
  split <;> simp_all

lemma uiContentStep_stroke (r : Pos) (i : Option Pos) (p : Painting) :
    (uiContentStep r i p).stroke = p.stroke := by
  cases i <;> rfl

lemma uiContentStep_lines_ne (r : Pos) (i : Option Pos) (p : Painting) :
    (uiContentStep r i p).lines ≠ [] := by
  obtain ⟨ls, st⟩ := p
  rcases eq_or_ne ls [] with rfl | hne
  · cases i with
    | some pp => rw [uiContentStep_nil_some]; simp
    | none => rw [uiContentStep_nil_none]; simp
  · obtain ⟨pre, lastL, rfl⟩ := lines_eq_concat ls hne
    cases i with
    | some pp => rw [uiContentStep_concat_some]; split <;> simp
    | none => rw [uiContentStep_concat_none]; split <;> simp

lemma lastLine_concat (pre : List (List Pos)) (lastL : List Pos)
    (st : Stroke) : lastLine ⟨pre ++ [lastL], st⟩ = lastL := by
  simp [lastLine, List.getLast?_concat]

lemma uiContentStep_lastLine (r : Pos) (i : Option Pos) (p : Painting) :
    lastLine (uiContentStep r i p) = [] ↔ i = none := by
  obtain ⟨ls, st⟩ := p
  rcases eq_or_ne ls [] with rfl | hne
  · cases i with
    | some pp => rw [uiContentStep_nil_some]; simp [lastLine]
    | none => rw [uiContentStep_nil_none]; simp [lastLine]
  · obtain ⟨pre, lastL, rfl⟩ := lines_eq_concat ls hne
    cases i with
    | some pp =>
      rw [uiContentStep_concat_some]
      split
      · simp [lastLine_concat]
      · rename_i hcond
        rw [not_not] at hcond
        cases lastL with
        | nil => simp at hcond
        | cons a as => simp [lastLine_concat]
    | none =>
      rw [uiContentStep_concat_none]
      split
      · rename_i hcond
        rw [List.isEmpty_eq_true] at hcond
        simp [lastLine_concat, hcond]
      · have hsplit : pre ++ [lastL, ([] : List Pos)] =
            (pre ++ [lastL]) ++ [[]] := by simp
        simp only [hsplit, lastLine_concat]

lemma uiContentStep_length (r : Pos) (i : Option Pos) (p : Painting)
    (h : p.lines ≠ []) :
    (uiContentStep r i p).lines.length =
      p.lines.length + (if lastLine p ≠ [] ∧ i = none then 1 else 0) := by
  obtain ⟨ls, st⟩ := p
  obtain ⟨pre, lastL, rfl⟩ := lines_eq_concat ls h
  rw [lastLine_concat]
  cases i with
  | some pp =>
    rw [uiContentStep_concat_some]
    split <;> simp
  | none =>
    rw [uiContentStep_concat_none]
    split
    · rename_i hcond
      rw [List.isEmpty_eq_true] at hcond
      simp [hcond]
    · rename_i hcond
      rw [List.isEmpty_eq_true] at hcond
      simp [hcond]

lemma uiContentStep_getElem (r : Pos) (i : Option Pos) (p : Painting)
    (k : Nat) (hk : k + 1 < p.lines.length) :
    (uiContentStep r i p).lines[k]? = p.lines[k]? := by
  obtain ⟨ls, st⟩ := p
  have hne : ls ≠ [] := by
    intro hcon; rw [hcon] at hk; simp at hk
  obtain ⟨pre, lastL, rfl⟩ := lines_eq_concat ls hne
  have hkpre : k < pre.length := by
    have := hk; simp only [List.length_append, List.length_cons,
      List.length_nil] at this; omega
  cases i with
  | some pp =>
    rw [uiContentStep_concat_some]
    split <;>
      simp [List.getElem?_append_left hkpre]
  | none =>
    rw [uiContentStep_concat_none]
    split
    · rfl
    · have hk2 : k < (pre ++ [lastL]).length := by
        simp only [List.length_append, List.length_cons, List.length_nil]
        omega
      have hsplit : pre ++ [lastL, ([] : List Pos)] =
          (pre ++ [lastL]) ++ [[]] := by simp
      simp only [hsplit, List.getElem?_append_left hk2]

lemma uiContentStep_cases (r : Pos) (i : Option Pos) (p : Painting) :
    (uiContentStep r i p).lines = p.lines
    ∨ (∃ pre lastL pp, i = some pp ∧ p.lines = pre ++ [lastL] ∧
        (uiContentStep r i p).lines = pre ++ [lastL ++ [pp - r]])
    ∨ (uiContentStep r i p).lines = p.lines ++ [[]]
    ∨ (p.lines = [] ∧ ∃ pp, i = some pp ∧
        (uiContentStep r i p).lines = [[pp - r]]) := by
  obtain ⟨ls, st⟩ := p
  rcases eq_or_ne ls [] with rfl | hne
  · cases i with
    | some pp =>
      refine Or.inr (Or.inr (Or.inr ⟨rfl, pp, rfl, ?_⟩))
      rw [uiContentStep_nil_some]
    | none =>
      refine Or.inr (Or.inr (Or.inl ?_))
      rw [uiContentStep_nil_none]; rfl
  · obtain ⟨pre, lastL, rfl⟩ := lines_eq_concat ls hne
    cases i with
    | some pp =>
      rw [uiContentStep_concat_some]
      split
      · exact Or.inr (Or.inl ⟨pre, lastL, pp, rfl, rfl, rfl⟩)
      · exact Or.inl rfl
    | none =>
      rw [uiContentStep_concat_none]
      split
      · exact Or.inl rfl
      · exact Or.inr (Or.inr (Or.inl (by simp)))

lemma uiContentStep_chain (r : Pos) (i : Option Pos) (p : Painting)
    (h : ∀ l ∈ p.lines, List.Chain' (fun a b => a ≠ b) l) :
    ∀ l ∈ (uiContentStep r i p).lines, List.Chain' (fun a b => a ≠ b) l := by
  obtain ⟨ls, st⟩ := p
  rcases eq_or_ne ls [] with rfl | hne
  · cases i with
    | some pp =>
      rw [uiContentStep_nil_some]
      intro l hl
      simp only [List.mem_singleton] at hl
      subst hl
      exact List.chain'_singleton _
    | none =>
      rw [uiContentStep_nil_none]
      intro l hl
      simp only [List.mem_singleton] at hl
      subst hl
      exact List.chain'_nil
  · obtain ⟨pre, lastL, rfl⟩ := lines_eq_concat ls hne
    cases i with
    | some pp =>
      rw [uiContentStep_concat_some]
      split
      · rename_i hcond
        intro l hl
        simp only [List.mem_append, List.mem_singleton] at hl
        rcases hl with hl | rfl
        · exact h l (List.mem_append_left _ hl)
        · have hlast : List.Chain' (fun a b => a ≠ b) lastL :=
            h lastL (List.mem_append_right _ (List.mem_singleton_self _))

          rw [List.chain'_append]
          refine ⟨hlast, List.chain'_singleton _, ?_⟩
          intro x hx y hy
          simp only [List.head?_cons, Option.mem_def, Option.some.injEq] at hy
          subst hy
          intro hxy
          subst hxy
          exact hcond (by rw [Option.mem_def] at hx; exact hx)
      · exact h
    | none =>
      rw [uiContentStep_concat_none]
      split
      · exact h
      · intro l hl
        simp only [List.mem_append, List.mem_singleton, List.mem_cons,
          List.not_mem_nil, or_false] at hl
        rcases hl with (hl | rfl) | rfl
        · exact h l (List.mem_append_left _ hl)
        · exact h _ (List.mem_append_right _ (List.mem_singleton_self _))
        · exact List.chain'_nil

lemma uiControl_clear_lines (st : Option Stroke) (p : Painting) :
    (uiControl st true p).lines = [] := by
  cases st <;> rfl

lemma uiControl_lines (st : Option Stroke) (c : Bool) (p : Painting) :
    (uiControl st c p).lines = [] ∨ (uiControl st c p).lines = p.lines := by
  cases st <;> cases c <;> simp [uiControl]

lemma runFrames_nil (r : Pos) (p : Painting) : runFrames r [] p = p := rfl

lemma runFrames_cons (r : Pos) (i : Option Pos) (rest : List (Option Pos))
    (p : Painting) :
    runFrames r (i :: rest) p = runFrames r rest (uiContentStep r i p) := rfl

lemma runFrames_invariant (r : Pos) (inputs : List (Option Pos))
    (held : Bool) (p : Painting) (hne : p.lines ≠ [])
    (hheld : lastLine p = [] ↔ held = false) :
    (runFrames r inputs p).lines ≠ []
    ∧ (runFrames r inputs p).lines.length =
        p.lines.length + cyclesFrom held inputs
    ∧ (lastLine (runFrames r inputs p) = [] ↔
        heldAfter held inputs = false) := by
  induction inputs generalizing p held with
  | nil =>
    exact ⟨hne, by simp [runFrames_nil, cyclesFrom], by
      simpa [runFrames_nil, heldAfter] using hheld⟩
  | cons i rest ih =>
    rw [runFrames_cons]
    have hne' := uiContentStep_lines_ne r i p
    have hheld' : lastLine (uiContentStep r i p) = [] ↔ i.isSome = false := by
      rw [uiContentStep_lastLine]; cases i <;> simp
    obtain ⟨a, b, c⟩ := ih i.isSome (uiContentStep r i p) hne' hheld'
    refine ⟨a, ?_, ?_⟩
    · rw [b, uiContentStep_length r i p hne]
      have hcount : (if lastLine p ≠ [] ∧ i = none then 1 else 0) =
          (if held && i.isNone then 1 else 0) := by
        cases held <;> cases i <;> simp_all
      rw [hcount]
      simp [cyclesFrom]
      omega
    · rw [c]
      simp [heldAfter]

lemma heldAfter_getLast (held : Bool) (inputs : List (Option Pos))
    (h : inputs ≠ []) :
    heldAfter held inputs = (inputs.getLast h).isSome := by
  induction inputs generalizing held with
  | nil => exact absurd rfl h
  | cons i rest ih =>
    cases rest with
    | nil => simp [heldAfter]
    | cons j rest' =>
      rw [List.getLast_cons (by simp)]
      exact ih i.isSome (by simp)

lemma paintShapes_eq_filter_map (r : Pos) (ls : List (List Pos)) :
    paintShapes r ls =
      (ls.filter (fun l => 2 ≤ l.length)).map
        (fun l => l.map (fun q => r + q)) := by
  induction ls with
  | nil => rfl
  | cons a as ih =>
    by_cases h2 : 2 ≤ a.length <;>
      simp [paintShapes, List.filter_cons, h2, ih]

lemma segments_length (s : List Pos) : (segments s).length = s.length - 1 := by
  simp only [segments, List.length_zip, List.length_tail]
  omega

/-! ### The claims -/

/-- C1: for every sequence of drag gestures fed to the per-frame step of
`Painting::ui_content`, the number of closed polylines (every polyline
except the last, which is the only one still able to receive points)
equals the number of completed press-then-release cycles of the trace,
and the last polyline is open — non-empty, still accumulating the current
stroke — iff the pointer is currently held inside the canvas (the last
frame had an interact pointer position). -/
theorem painting_closed_count_press_release (r : Pos)
    (inputs : List (Option Pos)) (h : inputs ≠ []) :
    closedCount (runFrames r inputs Painting.default) =
      pressReleaseCycles inputs
    ∧ (lastLine (runFrames r inputs Painting.default) ≠ [] ↔
        (inputs.getLast h).isSome = true) := by
  cases inputs with
  | nil => exact absurd rfl h
  | cons i rest =>
    rw [runFrames_cons]
    have hne' := uiContentStep_lines_ne r i Painting.default
    have hheld' : lastLine (uiContentStep r i Painting.default) = [] ↔
        i.isSome = false := by
      rw [uiContentStep_lastLine]; cases i <;> simp
    obtain ⟨ha, hb, hc⟩ :=
      runFrames_invariant r rest i.isSome _ hne' hheld'
    have hlen1 : (uiContentStep r i Painting.default).lines.length = 1 := by
      have hdef : Painting.default =
          (⟨[], ⟨1, lightBlue⟩⟩ : Painting) := rfl
      cases i with
      | some pp => rw [hdef, uiContentStep_nil_some]; rfl
      | none => rw [hdef, uiContentStep_nil_none]; rfl
    constructor
    · rw [closedCount, hb, hlen1]
      simp [pressReleaseCycles, cyclesFrom]
    · rw [← heldAfter_getLast false (i :: rest) h]
      have hstep : heldAfter false (i :: rest) = heldAfter i.isSome rest :=
        rfl
      rw [hstep]
      cases hh : heldAfter i.isSome rest <;> simp_all

/-- Witness for C1: the trace press-at-(1,2) then release yields one
closed polyline and an open (empty) last polyline. -/
theorem painting_closed_count_press_release_witness :
    ([some ((1 : Int), (2 : Int)), none] : List (Option Pos)) ≠ []
    ∧ (closedCount
        (runFrames (0, 0) [some (1, 2), none] Painting.default) =
        pressReleaseCycles [some (1, 2), none]
      ∧ (lastLine
          (runFrames (0, 0) [some (1, 2), none] Painting.default) ≠ [] ↔
          (([some ((1 : Int), (2 : Int)), none] :
            List (Option Pos)).getLast (by decide)).isSome = true)) :=
  ⟨by decide,
    painting_closed_count_press_release (0, 0) [some (1, 2), none]
      (by decide)⟩

/-- C2: in every painting state, at most one polyline is open and it is
the last element of the sequence: a frame step of `ui_content` leaves
every polyline other than the last unchanged in place (only the last can
still receive points), and `ui_control` either clears all polylines or
leaves the sequence untouched, so it never opens an earlier polyline. -/
theorem painting_only_last_polyline_open (r : Pos) (i : Option Pos)
    (st : Option Stroke) (c : Bool) (p : Painting) (k : Nat)
    (hk : k + 1 < p.lines.length) :
    (uiContentStep r i p).lines[k]? = p.lines[k]?
    ∧ ((uiControl st c p).lines = [] ∨ (uiControl st c p).lines = p.lines) :=
  ⟨uiContentStep_getElem r i p k hk, uiControl_lines st c p⟩

/-- Witness for C2: in a two-polyline state, a frame step leaves the
first polyline unchanged. -/
theorem painting_only_last_polyline_open_witness :
    0 + 1 < ([[((0 : Int), (0 : Int))], [(1, 1)]] : List (List Pos)).length
    ∧ ((uiContentStep (0, 0) none
        ⟨[[(0, 0)], [(1, 1)]], ⟨1, lightBlue⟩⟩).lines[0]? =
        ([[((0 : Int), (0 : Int))], [(1, 1)]] : List (List Pos))[0]?
      ∧ ((uiControl none false
          ⟨[[(0, 0)], [(1, 1)]], ⟨1, lightBlue⟩⟩).lines = []
        ∨ (uiControl none false
            ⟨[[(0, 0)], [(1, 1)]], ⟨1, lightBlue⟩⟩).lines =
            [[(0, 0)], [(1, 1)]])) :=
  ⟨by decide,
    painting_only_last_polyline_open (0, 0) none none false
      ⟨[[(0, 0)], [(1, 1)]], ⟨1, lightBlue⟩⟩ 0 (by decide)⟩

/-- C3: if the open (last) polyline is non-empty and the pointer's
canvas-local position equals its last point, the frame step changes
nothing: the point is appended only if it differs from the last point,
so the open polyline's length is unchanged. -/
theorem painting_dedup_idempotent (r pp : Pos) (p : Painting)
    (hne : p.lines ≠ [])
    (hlast : (lastLine p).getLast? = some (pp - r)) :
    (uiContentStep r (some pp) p).lines = p.lines
    ∧ (lastLine (uiContentStep r (some pp) p)).length =
        (lastLine p).length := by
  obtain ⟨ls, st⟩ := p
  obtain ⟨pre, lastL, rfl⟩ := lines_eq_concat ls hne
  rw [lastLine_concat] at hlast
  have hstep : uiContentStep r (some pp) ⟨pre ++ [lastL], st⟩ =
      ⟨pre ++ [lastL], st⟩ := by
    rw [uiContentStep_concat_some]
    simp [hlast]
  rw [hstep]
  exact ⟨rfl, rfl⟩

/-- Witness for C3: holding the pointer still at (1,1) appends nothing. -/
theorem painting_dedup_idempotent_witness :
    ([[((1 : Int), (1 : Int))]] : List (List Pos)) ≠ []
    ∧ (lastLine ⟨[[(1, 1)]], ⟨1, lightBlue⟩⟩).getLast? =
        some (((1 : Int), (1 : Int)) - ((0 : Int), (0 : Int)))
    ∧ ((uiContentStep (0, 0) (some (1, 1))
        ⟨[[(1, 1)]], ⟨1, lightBlue⟩⟩).lines = [[(1, 1)]]
      ∧ (lastLine (uiContentStep (0, 0) (some (1, 1))
          ⟨[[(1, 1)]], ⟨1, lightBlue⟩⟩)).length =
          (lastLine ⟨[[(1, 1)]], ⟨1, lightBlue⟩⟩).length) :=
  ⟨by decide, by decide,
    painting_dedup_idempotent (0, 0) (1, 1)
      ⟨[[(1, 1)]], ⟨1, lightBlue⟩⟩ (by decide) (by decide)⟩

/-- C4: the draw pass emits no shape for a polyline with fewer than 2
points; the shapes are exactly the polylines with at least 2 points, in
sequence order, each translated back to region-absolute coordinates; and
a polyline with n ≥ 2 points yields a line strip with exactly n - 1
consecutive segments. -/
theorem painting_draw_output_spec (r : Pos) (ls : List (List Pos))
    (l : List Pos) (hl : l ∈ ls) :
    paintShapes r ls =
      (ls.filter (fun l' => 2 ≤ l'.length)).map
        (fun l' => l'.map (fun q => r + q))
    ∧ (2 ≤ l.length →
        (segments (l.map (fun q => r + q))).length = l.length - 1) := by
  refine ⟨paintShapes_eq_filter_map r ls, fun _ => ?_⟩
  rw [segments_length, List.length_map]

/-- Witness for C4: a 2-point polyline next to a 1-point one produces
one translated strip with one segment. -/
theorem painting_draw_output_spec_witness :
    (([(0, 0), (1, 1)] : List Pos) ∈
      ([[(5, 5)], [(0, 0), (1, 1)]] : List (List Pos)))
    ∧ (paintShapes (2, 3) [[(5, 5)], [(0, 0), (1, 1)]] =
        (([[(5, 5)], [(0, 0), (1, 1)]] :
          List (List Pos)).filter (fun l' => 2 ≤ l'.length)).map
          (fun l' => l'.map (fun q => ((2 : Int), (3 : Int)) + q))
      ∧ (2 ≤ ([(0, 0), (1, 1)] : List Pos).length →
          (segments (([(0, 0), (1, 1)] : List Pos).map
            (fun q => ((2 : Int), (3 : Int)) + q))).length =
            ([(0, 0), (1, 1)] : List Pos).length - 1)) :=
  ⟨by decide,
    painting_draw_output_spec (2, 3) [[(5, 5)], [(0, 0), (1, 1)]]
      [(0, 0), (1, 1)] (by decide)⟩

/-- C5: the Clear action of `ui_control` empties the polyline sequence
regardless of prior content, and leaves the stroke style unchanged. -/
theorem painting_clear_spec (p : Painting) :
    (uiControl none true p).lines = []
    ∧ (uiControl none true p).stroke = p.stroke :=
  ⟨rfl, rfl⟩

/-- C6: a click of the Increment button adds exactly 1.0 with no clamp,
and pressing it in 11 successive frames from value 0.0 yields 11.0,
exceeding the slider's displayed bound of 10. -/
theorem increment_unclamped_spec :
    (∀ v : ℚ, incrementStep true v = v + 1)
    ∧ (List.replicate 11 true).foldl
        (fun v c => incrementStep c v) (0 : ℚ) = 11
    ∧ (10 : ℚ) < (List.replicate 11 true).foldl
        (fun v c => incrementStep c v) (0 : ℚ) := by
  refine ⟨fun v => rfl, ?_, ?_⟩ <;>
    norm_num [List.replicate, incrementStep]

/-- C7: an Invert click flips the inverted flag (a frame without an
Invert click leaves it unchanged), and after a Load or Invert click the
stored texture id is exactly the registry's id for the handle selected
by the post-toggle flag: the inverted icon when the flag is true, the
plain icon when it is false. -/
theorem image_buttons_select_spec (reg : ImageHandle → Nat)
    (load invert : Bool) (s : ImageUiState)
    (h : (load || invert) = true) :
    ((invert = true →
        (imageButtonsStep reg load invert s).inverted = ! s.inverted)
      ∧ (invert = false →
        (imageButtonsStep reg load invert s).inverted = s.inverted))
    ∧ (imageButtonsStep reg load invert s).renderedTextureId =
        reg (if (imageButtonsStep reg load invert s).inverted then
          ImageHandle.bevyIconInverted else ImageHandle.bevyIcon) := by
  obtain ⟨inv, tid⟩ := s
  cases load <;> cases invert <;> cases inv <;>
    simp_all [imageButtonsStep]

/-- Witness for C7: with Invert clicked from a non-inverted state, the
flag flips and the inverted icon's id is stored. -/
theorem image_buttons_select_spec_witness :
    ((false || true) = true)
    ∧ (((true = true →
          (imageButtonsStep
            (fun h => match h with
              | ImageHandle.bevyIcon => 1
              | ImageHandle.bevyIconInverted => 2)
            false true ⟨false, 0⟩).inverted = ! false)
        ∧ (true = false →
          (imageButtonsStep
            (fun h => match h with
              | ImageHandle.bevyIcon => 1
              | ImageHandle.bevyIconInverted => 2)
            false true ⟨false, 0⟩).inverted = false))
      ∧ (imageButtonsStep
          (fun h => match h with
            | ImageHandle.bevyIcon => 1
            | ImageHandle.bevyIconInverted => 2)
          false true ⟨false, 0⟩).renderedTextureId =
          (fun h => match h with
            | ImageHandle.bevyIcon => 1
            | ImageHandle.bevyIconInverted => 2)
          (if (imageButtonsStep
              (fun h => match h with
                | ImageHandle.bevyIcon => 1
                | ImageHandle.bevyIconInverted => 2)
              false true ⟨false, 0⟩).inverted then
            ImageHandle.bevyIconInverted else ImageHandle.bevyIcon)) :=
  ⟨by decide,
    image_buttons_select_spec
      (fun h => match h with
        | ImageHandle.bevyIcon => 1
        | ImageHandle.bevyIconInverted => 2)
      false true ⟨false, 0⟩ (by decide)⟩

/-- C8: after every `ui_content` frame step the polyline sequence is
non-empty, no step removes polylines (the length never decreases), and
from an empty sequence exactly one polyline is appended. -/
theorem painting_step_nonempty (r : Pos) (i : Option Pos) (p : Painting) :
    (uiContentStep r i p).lines ≠ []
    ∧ p.lines.length ≤ (uiContentStep r i p).lines.length
    ∧ (p.lines = [] → (uiContentStep r i p).lines.length = 1) := by
  refine ⟨uiContentStep_lines_ne r i p, ?_, ?_⟩
  · rcases uiContentStep_cases r i p with
      h | ⟨pre, lastL, pp, hi, h1, h2⟩ | h | ⟨h1, pp, hi, h2⟩ <;>
      simp_all
  · intro hnil
    obtain ⟨ls, st⟩ := p
    simp only at hnil
    subst hnil
    cases i with
    | some pp => rw [uiContentStep_nil_some]; rfl
    | none => rw [uiContentStep_nil_none]; rfl

/-- Witness for C8: a step from the empty initial state yields exactly
one polyline. -/
theorem painting_step_nonempty_witness :
    (uiContentStep (0, 0) (some (3, 4)) Painting.default).lines ≠ []
    ∧ Painting.default.lines.length ≤
        (uiContentStep (0, 0) (some (3, 4)) Painting.default).lines.length
    ∧ (Painting.default.lines = [] →
        (uiContentStep (0, 0) (some (3, 4))
          Painting.default).lines.length = 1) :=
  painting_step_nonempty (0, 0) (some (3, 4)) Painting.default

/-- C9: in every painting state reachable from the initial state by
frame steps and `ui_control` interactions (stroke edits and Clear), no
polyline contains two consecutive equal points. -/
theorem painting_no_consecutive_duplicates (p : Painting)
    (h : Reachable p) :
    ∀ l ∈ p.lines, List.Chain' (fun a b => a ≠ b) l := by
  induction h with
  | init =>
    intro l hl
    simp [Painting.default] at hl
  | frame r i _ ih => exact uiContentStep_chain r i _ ih
  | control st c _ ih =>
    intro l hl
    rcases uiControl_lines st c _ with hc | hc
    · rw [hc] at hl; simp at hl
    · rw [hc] at hl; exact ih l hl

/-- Witness for C9: the state after one pressed frame is reachable and
its single polyline has no consecutive duplicates. -/
theorem painting_no_consecutive_duplicates_witness :
    Reachable (uiContentStep (0, 0) (some (1, 2)) Painting.default)
    ∧ ∀ l ∈ (uiContentStep (0, 0) (some (1, 2))
        Painting.default).lines, List.Chain' (fun a b => a ≠ b) l :=
  ⟨Reachable.frame (0, 0) (some (1, 2)) Reachable.init,
    painting_no_consecutive_duplicates _
      (Reachable.frame (0, 0) (some (1, 2)) Reachable.init)⟩

/-- C10 counterexample: from the empty initial state with an active
pointer at (1,2), one frame step produces `[[(1,2)]]`, which is neither
the unchanged sequence, nor an existing last polyline with one point
appended, nor the sequence with one new empty polyline appended — so the
claim's three-way case split misses the empty-entry-with-active-pointer
case. -/
theorem painting_step_effect_counterexample :
    ¬((uiContentStep (0, 0) (some (1, 2)) Painting.default).lines =
        Painting.default.lines
      ∨ (∃ pre lastL q, Painting.default.lines = pre ++ [lastL] ∧
          (uiContentStep (0, 0) (some (1, 2)) Painting.default).lines =
            pre ++ [lastL ++ [q]])
      ∨ (uiContentStep (0, 0) (some (1, 2)) Painting.default).lines =
          Painting.default.lines ++ [[]]) := by
  intro hcon
  have hstep : (uiContentStep (0, 0) (some (1, 2))
      Painting.default).lines = [[(1, 2)]] := by decide
  have hdef : Painting.default.lines = [] := rfl
  rcases hcon with h | ⟨pre, lastL, q, h1, h2⟩ | h
  · rw [hstep, hdef] at h
    exact List.cons_ne_nil _ _ h
  · rw [hdef] at h1
    exact absurd h1.symm (by simp)
  · rw [hstep, hdef] at h
    simp at h

/-- C10 (amended): a frame step leaves every polyline other than the
last unchanged and never removes points; it either leaves the sequence
as is, appends one point — the canvas-local pointer position — to the
last polyline, appends one new empty polyline, or — when the sequence
was empty on entry and the pointer is active at position `pp` — appends
one new polyline holding exactly the canvas-local pointer position
`pp - rectMin`. -/
theorem painting_step_effect_amended (r : Pos) (i : Option Pos)
    (p : Painting) :
    (∀ k, k + 1 < p.lines.length →
      (uiContentStep r i p).lines[k]? = p.lines[k]?)
    ∧ ((uiContentStep r i p).lines = p.lines
      ∨ (∃ pre lastL pp, i = some pp ∧ p.lines = pre ++ [lastL] ∧
          (uiContentStep r i p).lines = pre ++ [lastL ++ [pp - r]])
      ∨ (uiContentStep r i p).lines = p.lines ++ [[]]
      ∨ (p.lines = [] ∧ ∃ pp, i = some pp ∧
          (uiContentStep r i p).lines = [[pp - r]])) :=
  ⟨fun k hk => uiContentStep_getElem r i p k hk, uiContentStep_cases r i p⟩
